import Mathlib

/-!
Verification of the acquisition/conversion/buffering pipeline of the
Modbus inrush-current analyzer (src/modbus_inrush_current_analyzer.py).

The numeric parts of the program use IEEE doubles; here they are embedded
over exact rationals.  All decimal literals of the program (0.000610, 3.8,
30.0, 4.0, 63.0, 16.0) are exactly representable, and the reachable values
never come within double rounding error of a comparison threshold or of a
rounding tie, so the rational model and the double computation agree on
every 16-bit code.
-/

namespace Modbus

/-- Built-in Python round on a rational: round half to even (banker
rounding); away from ties it is ordinary rounding to the nearest integer. -/
def pyRound (q : ℚ) : ℤ :=
  if q - ⌊q⌋ = 1/2 then (if ⌊q⌋ % 2 = 0 then ⌊q⌋ else ⌊q⌋ + 1) else round q

/-- Embeds `_code_to_mA` (line 375): scale a raw code to milliamps at
0.000610 mA per code unit. -/
def code_to_mA (code : ℕ) : ℚ := 0.000610 * (code : ℚ)

/-- Embeds `_mA_to_A` (line 381): the 4..20 mA to 0..63 A affine map. -/
def mA_to_A (I_mA : ℚ) : ℚ := (I_mA - 4.0) * (63.0 / 16.0)

/-- Embeds the conversion part of `_code_to_A_int` (lines 387-407):
mask to 16 bits, reject the four sentinel codes, convert to milliamps,
reject outside the 3.8..30.0 mA band, convert to amperes, clamp to
0..63 and round. -/
def code_to_A_int_conv (raw_code : ℕ) : Option ℤ :=
  let code := raw_code % 65536
  if code = 0xFFFF ∨ code = 0xFFFE ∨ code = 0x0000 ∨ code = 0x7FFF then
    none
  else
    let I := code_to_mA code
    if I < 3.8 ∨ I > 30.0 then
      none
    else
      let A := mA_to_A I
      let A2 := max 0.0 (min 63.0 A)
      some (pyRound A2)

/-- Embeds the anti-spike tail of `_code_to_A_int` (lines 409-414):
given the `_last_a_int` state and a candidate integer, return the value
produced and the new `_last_a_int` state. -/
def spike_accept (last_a_int : Option ℤ) (A_int : ℤ) : ℤ × Option ℤ :=
  match last_a_int with
  | some last =>
      if |A_int - last| > 10 then (last, some last)
      else (A_int, some A_int)
  | none => (A_int, some A_int)

/-- Embeds the whole method `_code_to_A_int` (lines 387-414): conversion
followed by the anti-spike filter, threaded through the `_last_a_int`
state.  Returns the produced optional value and the new state. -/
def code_to_A_int (last_a_int : Option ℤ) (raw_code : Option ℕ) :
    Option ℤ × Option ℤ :=
  match raw_code with
  | none => (none, last_a_int)
  | some rc =>
      match code_to_A_int_conv rc with
      | none => (none, last_a_int)
      | some A_int =>
          let p := spike_accept last_a_int A_int
          (some p.1, p.2)

/-- The per-run acquisition state touched by `_worker_loop`: the warm-up
counter `_warmup_left`, the anti-spike state `_last_a_int`, and the
full-history log `series_all` (timestamp, integer amperes). -/
structure RunState where
  warmup_left : ℕ
  last_a_int : Option ℤ
  series_all : List (ℕ × ℤ)
deriving DecidableEq, Repr

/-- Embeds the state reset of `on_start` (lines 633-637): clear the log,
set `_warmup_left` to `_warmup_to_skip` and clear `_last_a_int`. -/
def on_start_state (warmup_to_skip : ℕ) : RunState :=
  { warmup_left := warmup_to_skip, last_a_int := none, series_all := [] }

/-- Default `_warmup_to_skip` (line 126). -/
def warmup_to_skip_default : ℕ := 10

/-- One tick of `_worker_loop` (lines 664-673) at converter granularity:
the argument is the output of the conversion stage (lines 387-407) for
this tick; the anti-spike filter (inside `_code_to_A_int`) runs first,
then the warm-up gate decides whether the value reaches `series_all`. -/
def pipeline_tick (s : RunState) (ts : ℕ) (conv : Option ℤ) : RunState :=
  match conv with
  | none => s
  | some A_int =>
      let p := spike_accept s.last_a_int A_int
      if s.warmup_left > 0 then
        { s with warmup_left := s.warmup_left - 1, last_a_int := p.2 }
      else
        { s with last_a_int := p.2, series_all := s.series_all ++ [(ts, p.1)] }

/-- Iterated `pipeline_tick` over a list of (timestamp, converter output). -/
def pipeline_run (s : RunState) (ins : List (ℕ × Option ℤ)) : RunState :=
  ins.foldl (fun st p => pipeline_tick st p.1 p.2) s

/-- One tick of `_worker_loop` (lines 660-673) at raw level: the argument
is the optional register list returned by `reader.read_ch`; `_code_to_A_int`
is applied to its first register when present and non-empty. -/
def worker_tick (s : RunState) (ts : ℕ) (raw : Option (List ℕ)) : RunState :=
  let pr :=
    match raw with
    | some (r0 :: _) => code_to_A_int s.last_a_int (some r0)
    | _ => (none, s.last_a_int)
  match pr.1 with
  | none => { s with last_a_int := pr.2 }
  | some a_int =>
      if s.warmup_left > 0 then
        { s with warmup_left := s.warmup_left - 1, last_a_int := pr.2 }
      else
        { s with last_a_int := pr.2, series_all := s.series_all ++ [(ts, a_int)] }

/-- Iterated `worker_tick` over a list of (timestamp, read result). -/
def worker_run (s : RunState) (ins : List (ℕ × Option (List ℕ))) : RunState :=
  ins.foldl (fun st p => worker_tick st p.1 p.2) s

/-- The anti-spike filter iterated over a list of candidates: the list of
produced values and the final `_last_a_int` state. -/
def spike_run (last_a_int : Option ℤ) : List ℤ → List ℤ × Option ℤ
  | [] => ([], last_a_int)
  | a :: as =>
      let p := spike_accept last_a_int a
      let q := spike_run p.2 as
      (p.1 :: q.1, q.2)

/-- Embeds the changes-only scan of `on_save_excel` (lines 746-751): walk
the rows keeping a `last` value, retain a row when `last` is absent or the
value differs from `last`. -/
def changesScan (last : Option ℤ) : List (ℕ × ℤ) → List (ℕ × ℤ)
  | [] => []
  | (ts, a) :: rest =>
      if last = none ∨ last ≠ some a then (ts, a) :: changesScan (some a) rest
      else changesScan last rest

/-- Embeds the full change compression of `on_save_excel` (lines 746-753):
the scan, then, when the retained list is non-empty and its last timestamp
differs from the last row timestamp, the final row is appended. -/
def compress (rows : List (ℕ × ℤ)) : List (ℕ × ℤ) :=
  let changes := changesScan none rows
  match changes.getLast?, rows.getLast? with
  | some c, some r => if c.1 ≠ r.1 then changes ++ [r] else changes
  | _, _ => changes

/-- Written from the wording of the specification: after the first point
is kept, keep a later point exactly when its value differs from the most
recently kept value (`lastVal`). -/
def keepTransitions (lastVal : ℤ) : List (ℕ × ℤ) → List (ℕ × ℤ)
  | [] => []
  | (ts, a) :: rest =>
      if a = lastVal then keepTransitions lastVal rest
      else (ts, a) :: keepTransitions a rest

/-- Written from the wording of the specification, for comparison with
`compress`: retain the first point always, thereafter retain a point
exactly when its value differs from the most recently retained value, and
finally append the input last point exactly when the last retained
timestamp differs from the input last timestamp. -/
def compressSpec : List (ℕ × ℤ) → List (ℕ × ℤ)
  | [] => []
  | p :: rest =>
      let kept := p :: keepTransitions p.2 rest
      let lastIn := rest.getLastD p
      let lastKept := (keepTransitions p.2 rest).getLastD p
      if lastKept.1 ≠ lastIn.1 then kept ++ [lastIn] else kept

/-- A Python slice `l[-m:]` for a non-negative `m`: the last `m` elements,
the whole list when `m = 0`. -/
def pySliceLast {α : Type} (m : ℕ) (l : List α) : List α :=
  if m = 0 then l else l.drop (l.length - m)

/-- Embeds the rolling trend-buffer append of `_worker_loop` lines 681-683
(identical to `_process_queue_item` lines 366-368): append the point, then
when the length exceeds `trend_buffer_max` keep only the last
`trend_buffer_max` entries. -/
def trend_append {α : Type} (trend_buffer_max : ℕ) (buf : List α) (x : α) :
    List α :=
  let buf2 := buf ++ [x]
  if buf2.length > trend_buffer_max then pySliceLast trend_buffer_max buf2
  else buf2

/-- Samples per second: `int(1000 / self.sample_interval_ms)` with the
10 ms interval of line 97 (line 99). -/
def points_per_second : ℕ := 1000 / 10

/-- The window/trend configuration state touched by `_set_trend_window`
and `_on_trend_window_change`. -/
structure TrendState where
  window_seconds : ℕ
  trend_buffer_max : ℕ
  trend_buffer : List (ℕ × List (Option ℤ))
deriving DecidableEq, Repr

/-- Embeds `_set_trend_window` (lines 261-263): store the window length
and recompute the rolling capacity. -/
def set_trend_window (s : TrendState) (seconds : ℕ) : TrendState :=
  { s with window_seconds := seconds,
           trend_buffer_max := seconds * points_per_second }

/-- Embeds `_on_trend_window_change` (lines 265-271): dispatch on the
combo-box label; the final `_redraw_trend()` reads but never writes the
state. -/
def on_trend_window_change (s : TrendState) (label : String) : TrendState :=
  if label = "10 s" then set_trend_window s 10
  else if label = "30 s" then set_trend_window s 30
  else if label = "60 s" then set_trend_window s 60
  else if label = "5 min" then set_trend_window s 300
  else s

/-- The range invariant maintained across a run: the anti-spike state and
every logged value lie in [0, 63]. -/
def seriesOk (s : RunState) : Prop :=
  (∀ v, s.last_a_int = some v → 0 ≤ v ∧ v ≤ 63) ∧
  (∀ p ∈ s.series_all, 0 ≤ p.2 ∧ p.2 ≤ 63)

-- helper lemmas about pyRound

theorem abs_pyRound_sub_le (q : ℚ) : |(pyRound q : ℚ) - q| ≤ 1/2 := by
  unfold pyRound
  split_ifs with h h2
  · rw [abs_le]
    constructor <;> linarith
  · rw [abs_le]
    push_cast
    constructor <;> linarith
  · rw [abs_sub_comm]
    exact abs_sub_round q

theorem pyRound_mem_Icc {q : ℚ} {a b : ℤ} (ha : (a : ℚ) ≤ q) (hb : q ≤ (b : ℚ)) :
    a ≤ pyRound q ∧ pyRound q ≤ b := by
  have habs := abs_pyRound_sub_le q
  rw [abs_le] at habs
  constructor
  · have h1 : (a : ℚ) - 1 < (pyRound q : ℚ) := by linarith
    have h2 : ((a - 1 : ℤ) : ℚ) < (pyRound q : ℚ) := by push_cast; linarith
    have := Int.cast_lt.mp h2
    omega
  · have h1 : (pyRound q : ℚ) < (b : ℚ) + 1 := by linarith
    have h2 : (pyRound q : ℚ) < ((b + 1 : ℤ) : ℚ) := by push_cast; linarith
    have := Int.cast_lt.mp h2
    omega

/-- C1: for every raw 16-bit code, the converter returns absent exactly
when the code is one of the sentinels 0xFFFF, 0xFFFE, 0x0000, 0x7FFF or
the milliamp value 0.000610 * code lies strictly outside [3.8, 30.0]; for
every other code it returns the integer obtained by clamping
(0.000610*code - 4.0) * 63.0/16.0 to [0.0, 63.0] and rounding to the
nearest integer. -/
theorem claim_C1_converter (c : ℕ) (hc : c < 65536) :
    (code_to_A_int_conv c = none ↔
       (c = 0xFFFF ∨ c = 0xFFFE ∨ c = 0x0000 ∨ c = 0x7FFF) ∨
       code_to_mA c < 3.8 ∨ code_to_mA c > 30.0) ∧
    (∀ z, code_to_A_int_conv c = some z →
       z = pyRound (max 0.0 (min 63.0 (mA_to_A (code_to_mA c)))) ∧
       |(z : ℚ) - max 0.0 (min 63.0 (mA_to_A (code_to_mA c)))| ≤ 1/2) := by
  have hmod : c % 65536 = c := Nat.mod_eq_of_lt hc
  constructor
  · simp only [code_to_A_int_conv, hmod]
    split_ifs with h1 h2
    · simp [h1]
    · simp [h1, h2]
    · simp [h1, h2]
  · intro z hz
    simp only [code_to_A_int_conv, hmod] at hz
    split_ifs at hz with h1 h2
    injection hz with hz
    refine ⟨hz.symm, ?_⟩
    rw [← hz]
    exact abs_pyRound_sub_le _

/-- Witness for C1 at the concrete code 8192 (5.0 mA, converter value 4). -/
theorem claim_C1_converter_witness :
    8192 < 65536 ∧
    ((code_to_A_int_conv 8192 = none ↔
       (8192 = 0xFFFF ∨ 8192 = 0xFFFE ∨ 8192 = 0x0000 ∨ 8192 = 0x7FFF) ∨
       code_to_mA 8192 < 3.8 ∨ code_to_mA 8192 > 30.0) ∧
    (∀ z, code_to_A_int_conv 8192 = some z →
       z = pyRound (max 0.0 (min 63.0 (mA_to_A (code_to_mA 8192)))) ∧
       |(z : ℚ) - max 0.0 (min 63.0 (mA_to_A (code_to_mA 8192)))| ≤ 1/2)) :=
  ⟨by decide, claim_C1_converter 8192 (by decide)⟩

/-- C2: the spike filter passes a candidate through (and records it) when
no last-accepted value exists or the jump is at most 10; when the jump
exceeds 10 it returns the last-accepted value and leaves the state
unchanged; in particular with state 20 candidate 35 yields 20 with state
20, and candidate 28 yields 28 with state 28. -/
theorem claim_C2_spike_filter :
    (∀ a : ℤ, spike_accept none a = (a, some a)) ∧
    (∀ l a : ℤ, |a - l| > 10 → spike_accept (some l) a = (l, some l)) ∧
    (∀ l a : ℤ, |a - l| ≤ 10 → spike_accept (some l) a = (a, some a)) ∧
    spike_accept (some 20) 35 = (20, some 20) ∧
    spike_accept (some 20) 28 = (28, some 28) := by
  refine ⟨fun a => rfl, fun l a h => ?_, fun l a h => ?_, by decide, by decide⟩
  · simp [spike_accept, h]
  · simp [spike_accept, not_lt.mpr h]

/-- Witness for C2 at concrete inputs: a rejected jump at state 0,
candidate 11, and an accepted one at state 0, candidate 10. -/
theorem claim_C2_spike_filter_witness :
    (|(11 : ℤ) - 0| > 10 ∧ spike_accept (some 0) 11 = (0, some 0)) ∧
    (|(10 : ℤ) - 0| ≤ 10 ∧ spike_accept (some 0) 10 = (10, some 10)) :=
  ⟨⟨by decide, claim_C2_spike_filter.2.1 0 11 (by decide)⟩,
   ⟨by decide, claim_C2_spike_filter.2.2.1 0 10 (by decide)⟩⟩

theorem pipeline_tick_some (s : RunState) (ts : ℕ) (a : ℤ) :
    pipeline_tick s ts (some a) =
      if s.warmup_left > 0 then
        { s with warmup_left := s.warmup_left - 1,
                 last_a_int := (spike_accept s.last_a_int a).2 }
      else
        { s with last_a_int := (spike_accept s.last_a_int a).2,
                 series_all := s.series_all ++ [(ts, (spike_accept s.last_a_int a).1)] } :=
  rfl

theorem pipeline_run_present (ins : List (ℕ × ℤ)) :
    ∀ (N : ℕ) (last0 : Option ℤ) (acc : List (ℕ × ℤ)),
    pipeline_run ⟨N, last0, acc⟩ (ins.map fun p => (p.1, some p.2)) =
      ⟨N - ins.length,
       (spike_run last0 (ins.map Prod.snd)).2,
       acc ++ ((ins.map Prod.fst).zip (spike_run last0 (ins.map Prod.snd)).1).drop N⟩ := by
  induction ins with
  | nil =>
      intro N last0 acc
      simp [pipeline_run, spike_run]
  | cons hd tl ih =>
      intro N last0 acc
      obtain ⟨t, a⟩ := hd
      simp only [List.map_cons, pipeline_run, List.foldl_cons]
      cases N with
      | zero =>
          have htick : pipeline_tick (RunState.mk 0 last0 acc) t (some a)
              = RunState.mk 0 (spike_accept last0 a).2
                  (acc ++ [(t, (spike_accept last0 a).1)]) := by
            rw [pipeline_tick_some]
            simp
          rw [htick]
          have := ih 0 (spike_accept last0 a).2
            (acc ++ [(t, (spike_accept last0 a).1)])
          simp only [pipeline_run] at this
          rw [this]
          simp [spike_run, List.append_assoc]
      | succ n =>
          have htick : pipeline_tick (RunState.mk (n + 1) last0 acc) t (some a)
              = RunState.mk n (spike_accept last0 a).2 acc := by
            rw [pipeline_tick_some]
            simp
          rw [htick]
          have := ih n (spike_accept last0 a).2 acc
          simp only [pipeline_run] at this
          rw [this]
          simp [spike_run, Nat.succ_sub_succ, List.drop_succ_cons]

/-- C3: with the warm-up counter initialized to N at run start, each of
the first N non-absent readings decrements the counter and is discarded,
and every later non-absent reading is retained unmodified: the log equals
the sequence of filtered readings with its first N entries dropped, the
counter ends at N minus the number of readings, absent ticks change
nothing, and with threshold 3 the first 3 readings are discarded while the
4th and 5th pass through. -/
theorem claim_C3_warmup_gate (N : ℕ) (ins : List (ℕ × ℤ)) :
    ((pipeline_run (on_start_state N) (ins.map fun p => (p.1, some p.2))).series_all
       = ((ins.map Prod.fst).zip (spike_run none (ins.map Prod.snd)).1).drop N ∧
     (pipeline_run (on_start_state N) (ins.map fun p => (p.1, some p.2))).warmup_left
       = N - ins.length) ∧
    (∀ (s : RunState) (ts : ℕ), pipeline_tick s ts none = s) ∧
    (pipeline_run (on_start_state 3)
        [(0, some 4), (1, some 5), (2, some 6), (3, some 7), (4, some 8)]).series_all
      = [(3, 7), (4, 8)] := by
  refine ⟨?_, fun s ts => rfl, by decide⟩
  rw [show on_start_state N = ⟨N, none, []⟩ from rfl, pipeline_run_present]
  exact ⟨by simp, rfl⟩

/-- C4: starting a run with warm-up count 2 and feeding six ticks whose
converted ampere values are 5, 5, 5, 40, 6, 7 leaves the full-history log
holding exactly the values [5, 5, 6, 7]: the first two 5s are consumed by
warm-up, the 40 is replaced by the last-accepted 5, then 6 and 7 are
accepted. -/
theorem claim_C4_end_to_end :
    ((pipeline_run (on_start_state 2)
        [(0, some 5), (1, some 5), (2, some 5), (3, some 40),
         (4, some 6), (5, some 7)]).series_all).map Prod.snd
      = [5, 5, 6, 7] := by
  decide

/-- C10: a reading consumed by the warm-up gate still passes through the
spike filter and updates its last-accepted baseline (the filter runs
inside the conversion step, before the warm-up counter is consulted), so
the first reading retained after warm-up is filtered against the last
warm-up value: concretely, warm-up 1 with readings 5 then 20 retains 5,
not 20. -/
theorem claim_C10_warmup_updates_spike_state :
    (∀ (s : RunState) (ts : ℕ) (a : ℤ), 0 < s.warmup_left →
       pipeline_tick s ts (some a) =
         { warmup_left := s.warmup_left - 1,
           last_a_int := (spike_accept s.last_a_int a).2,
           series_all := s.series_all }) ∧
    pipeline_run (on_start_state 1) [(0, some 5), (1, some 20)]
      = { warmup_left := 0, last_a_int := some 5, series_all := [(1, 5)] } := by
  constructor
  · intro s ts a hw
    rw [pipeline_tick_some, if_pos hw]
  · decide

/-- Witness for C10 at warm-up counter 1, empty log, reading 7. -/
theorem claim_C10_warmup_updates_spike_state_witness :
    0 < (RunState.mk 1 none []).warmup_left ∧
    pipeline_tick (RunState.mk 1 none []) 0 (some 7)
      = { warmup_left := 1 - 1, last_a_int := (spike_accept none 7).2,
          series_all := [] } :=
  ⟨by decide, claim_C10_warmup_updates_spike_state.1 (RunState.mk 1 none []) 0 7 (by decide)⟩

-- helper lemmas about the change compressor

theorem changesScan_some_eq_kt (xs : List (ℕ × ℤ)) :
    ∀ l : ℤ, changesScan (some l) xs = keepTransitions l xs := by
  induction xs with
  | nil => intro l; rfl
  | cons hd tl ih =>
      intro l
      obtain ⟨ts, a⟩ := hd
      by_cases h : a = l
      · subst h
        simp [changesScan, keepTransitions, ih]
      · simp [changesScan, keepTransitions, h, Ne.symm h, ih]

theorem changesScan_none_cons (p : ℕ × ℤ) (rest : List (ℕ × ℤ)) :
    changesScan none (p :: rest) = p :: keepTransitions p.2 rest := by
  obtain ⟨ts, a⟩ := p
  simp [changesScan, changesScan_some_eq_kt]

theorem getLast?_cons_getLastD {α : Type} (p : α) (xs : List α) :
    (p :: xs).getLast? = some (xs.getLastD p) := by
  induction xs generalizing p with
  | nil => rfl
  | cons q tl ih => rw [List.getLast?_cons_cons, ih, List.getLastD_cons]

theorem compress_cons (p : ℕ × ℤ) (rest : List (ℕ × ℤ)) :
    compress (p :: rest) =
      if ((keepTransitions p.2 rest).getLastD p).1 ≠ (rest.getLastD p).1
      then (p :: keepTransitions p.2 rest) ++ [rest.getLastD p]
      else p :: keepTransitions p.2 rest := by
  simp only [compress, changesScan_none_cons, getLast?_cons_getLastD]

theorem compress_eq_compressSpec (rows : List (ℕ × ℤ)) :
    compress rows = compressSpec rows := by
  cases rows with
  | nil => rfl
  | cons p rest => rw [compress_cons]; rfl

theorem kt_chain (xs : List (ℕ × ℤ)) :
    ∀ l : ℤ, List.Chain' (fun a b => a ≠ b)
      (l :: (keepTransitions l xs).map Prod.snd) := by
  induction xs with
  | nil => intro l; simp [keepTransitions]
  | cons hd tl ih =>
      intro l
      obtain ⟨ts, a⟩ := hd
      by_cases h : a = l
      · subst h
        simpa [keepTransitions] using ih a
      · simp only [keepTransitions, if_neg h, List.map_cons, List.chain'_cons]
        exact ⟨Ne.symm h, ih a⟩

theorem kt_of_chain (xs : List (ℕ × ℤ)) :
    ∀ l : ℤ, List.Chain' (fun a b => a ≠ b) (l :: xs.map Prod.snd) →
    keepTransitions l xs = xs := by
  induction xs with
  | nil => intro l _; rfl
  | cons hd tl ih =>
      intro l h
      obtain ⟨ts, a⟩ := hd
      simp only [List.map_cons, List.chain'_cons] at h
      simp only [keepTransitions, if_neg (Ne.symm h.1)]
      rw [ih a h.2]

theorem kt_idem (l : ℤ) (xs : List (ℕ × ℤ)) :
    keepTransitions l (keepTransitions l xs) = keepTransitions l xs :=
  kt_of_chain _ l (kt_chain xs l)

theorem kt_append (ys : List (ℕ × ℤ)) (xs : List (ℕ × ℤ)) :
    ∀ l : ℤ, keepTransitions l (xs ++ ys)
      = keepTransitions l xs
        ++ keepTransitions (((keepTransitions l xs).map Prod.snd).getLastD l) ys := by
  induction xs with
  | nil =>
      intro l
      simp only [List.nil_append, keepTransitions, List.map_nil, List.getLastD_nil]
  | cons hd tl ih =>
      intro l
      obtain ⟨ts, a⟩ := hd
      by_cases h : a = l
      · subst h
        simp only [List.cons_append, keepTransitions, if_pos (rfl : a = a)]
        exact ih a
      · simp only [List.cons_append, keepTransitions, if_neg h, List.map_cons,
                   List.getLastD_cons]
        exact congrArg (List.cons (ts, a)) (ih a)

theorem kt_lastVal (xs : List (ℕ × ℤ)) :
    ∀ (l : ℤ) (d : ℕ × ℤ), xs ≠ [] →
    (xs.getLastD d).2 = ((keepTransitions l xs).map Prod.snd).getLastD l := by
  induction xs with
  | nil => intro l d h; exact absurd rfl h
  | cons hd tl ih =>
      intro l d _
      obtain ⟨ts, a⟩ := hd
      cases tl with
      | nil =>
          by_cases h : a = l
          · subst h
            simp [keepTransitions, List.getLastD_cons, List.getLastD_nil]
          · simp [keepTransitions, h, List.getLastD_cons, List.getLastD_nil]
      | cons q tq =>
          rw [List.getLastD_cons]
          by_cases h : a = l
          · subst h
            rw [show keepTransitions a ((ts, a) :: q :: tq)
                  = keepTransitions a (q :: tq) from by simp [keepTransitions]]
            exact ih a (ts, a) (by simp)
          · rw [show keepTransitions l ((ts, a) :: q :: tq)
                  = (ts, a) :: keepTransitions a (q :: tq) from by
                    simp [keepTransitions, h]]
            rw [show ((((ts, a) :: keepTransitions a (q :: tq)).map Prod.snd).getLastD l)
                  = ((keepTransitions a (q :: tq)).map Prod.snd).getLastD a from by
                    rw [List.map_cons, List.getLastD_cons]]
            exact ih a (ts, a) (by simp)

theorem getLastD_append_single {α : Type} (zs : List α) (r : α) :
    ∀ d : α, (zs ++ [r]).getLastD d = r := by
  induction zs with
  | nil => intro d; rfl
  | cons z tl ih => intro d; rw [List.cons_append, List.getLastD_cons, ih]

theorem kt_snoc_same (l : ℤ) (xs : List (ℕ × ℤ)) (r : ℕ × ℤ)
    (hv : r.2 = ((keepTransitions l xs).map Prod.snd).getLastD l) :
    keepTransitions l (keepTransitions l xs ++ [r]) = keepTransitions l xs := by
  obtain ⟨rt, rv⟩ := r
  rw [kt_append, kt_idem]
  rw [show keepTransitions (((keepTransitions l xs).map Prod.snd).getLastD l)
        [(rt, rv)] = [] from by
          have hv2 : rv = ((keepTransitions l xs).map Prod.snd).getLastD l := hv
          simp only [keepTransitions, if_pos hv2]]
  rw [List.append_nil]

/-- C5: the change compressor retains the first point, thereafter retains
a point exactly when its value differs from the most recently retained
value, and finally appends the input last point exactly when the last
retained timestamp differs from the input last timestamp (this is the
behaviour `compressSpec` transcribes from the specification); it returns
empty only for empty input; and it maps the two example series
[(t0,5),(t1,5),(t2,7),(t3,7),(t4,7)] and [(t0,9),(t1,9),(t2,9)] to
[(t0,5),(t2,7),(t4,7)] and [(t0,9),(t2,9)]. -/
theorem claim_C5_change_compressor :
    (∀ rows, compress rows = compressSpec rows) ∧
    (∀ rows, compress rows = [] ↔ rows = []) ∧
    compress [(0, 5), (1, 5), (2, 7), (3, 7), (4, 7)]
      = [(0, 5), (2, 7), (4, 7)] ∧
    compress [(0, 9), (1, 9), (2, 9)] = [(0, 9), (2, 9)] := by
  refine ⟨compress_eq_compressSpec, ?_, by decide, by decide⟩
  intro rows
  cases rows with
  | nil => constructor <;> intro h <;> rfl
  | cons p rest =>
      rw [compress_cons]
      constructor
      · intro h
        exfalso
        by_cases hc : ((keepTransitions p.2 rest).getLastD p).1
            ≠ (rest.getLastD p).1
        · rw [if_pos hc] at h
          simp at h
        · rw [if_neg hc] at h
          simp at h
      · intro h
        exact absurd h (List.cons_ne_nil p rest)

/-- C6: the change compressor is idempotent: recompressing a compressed
history yields it unchanged. -/
theorem claim_C6_compressor_idempotent :
    ∀ h : List (ℕ × ℤ), compress (compress h) = compress h := by
  intro rows
  cases rows with
  | nil => rfl
  | cons p rest =>
      rw [compress_cons]
      by_cases hc : ((keepTransitions p.2 rest).getLastD p).1
          ≠ (rest.getLastD p).1
      · have hrest : rest ≠ [] := fun he => hc (by subst he; simp [keepTransitions])
        rw [if_pos hc, List.cons_append, compress_cons]
        rw [kt_snoc_same p.2 rest (rest.getLastD p) (kt_lastVal rest p.2 p hrest)]
        rw [getLastD_append_single]
        rw [if_pos hc]
        rw [List.cons_append]
      · rw [if_neg hc, compress_cons, kt_idem]
        simp

theorem foldl_trend_append_no_evict {α : Type} (m : ℕ) (l : List α) :
    ∀ acc : List α, acc.length + l.length ≤ m →
    List.foldl (trend_append m) acc l = acc ++ l := by
  induction l with
  | nil => intro acc _; simp
  | cons x tl ih =>
      intro acc hle
      simp only [List.length_cons] at hle
      have hx : trend_append m acc x = acc ++ [x] := by
        unfold trend_append pySliceLast
        rw [if_neg]
        simp only [List.length_append, List.length_cons, List.length_nil]
        omega
      rw [List.foldl_cons, hx,
          ih (acc ++ [x]) (by simp only [List.length_append, List.length_cons,
            List.length_nil]; omega)]
      simp

/-- C7: the rolling trend buffer never exceeds its capacity after an
append, eviction is oldest-first (the result is a suffix of the buffer
plus the new point), and concretely appending 1001 points at capacity
1000 leaves exactly the most recent 1000, the very first appended point
absent. -/
theorem claim_C7_rolling_buffer :
    (∀ maxLen : ℕ, 0 < maxLen →
       ∀ (buf : List (ℕ × List (Option ℤ))) (x : ℕ × List (Option ℤ)),
         (trend_append maxLen buf x).length ≤ maxLen ∧
         List.IsSuffix (trend_append maxLen buf x) (buf ++ [x])) ∧
    (List.foldl (trend_append 1000) []
        ((List.range 1001).map fun i => (i, ([some 0] : List (Option ℤ))))
       = ((List.range 1001).map fun i => (i, ([some 0] : List (Option ℤ)))).drop 1 ∧
     (List.foldl (trend_append 1000) []
        ((List.range 1001).map fun i => (i, ([some 0] : List (Option ℤ))))).length
       = 1000 ∧
     (0, ([some 0] : List (Option ℤ))) ∉
       List.foldl (trend_append 1000) []
         ((List.range 1001).map fun i => (i, ([some 0] : List (Option ℤ))))) := by
  have hfold :
      List.foldl (trend_append 1000) []
          ((List.range 1001).map fun i => (i, ([some 0] : List (Option ℤ))))
        = ((List.range 1001).map fun i => (i, ([some 0] : List (Option ℤ)))).drop 1 := by
    rw [show (1001 : ℕ) = 1000 + 1 from rfl, List.range_succ, List.map_append,
        List.foldl_append]
    rw [foldl_trend_append_no_evict 1000 _ [] (by simp)]
    simp only [List.nil_append, List.map_cons, List.map_nil, List.foldl_cons,
               List.foldl_nil]
    unfold trend_append pySliceLast
    rw [if_pos (by simp), if_neg (by omega)]
    simp
  refine ⟨?_, hfold, ?_, ?_⟩
  · intro maxLen hpos buf x
    unfold trend_append pySliceLast
    by_cases hlen : (buf ++ [x]).length > maxLen
    · rw [if_pos hlen, if_neg (by omega)]
      constructor
      · rw [List.length_drop]
        omega
      · exact List.drop_suffix _ _
    · rw [if_neg hlen]
      exact ⟨by omega, List.suffix_refl _⟩
  · rw [hfold]
    simp
  · rw [hfold]
    rw [show (1001 : ℕ) = 1000 + 1 from rfl, List.range_succ_eq_map]
    simp

/-- Witness for C7 at capacity 1, empty buffer, one appended point. -/
theorem claim_C7_rolling_buffer_witness :
    0 < 1 ∧
    ((trend_append 1 [] ((0 : ℕ), ([] : List (Option ℤ)))).length ≤ 1 ∧
     List.IsSuffix (trend_append 1 [] ((0 : ℕ), ([] : List (Option ℤ))))
       ([] ++ [((0 : ℕ), ([] : List (Option ℤ)))])) :=
  ⟨by decide, claim_C7_rolling_buffer.1 1 (by decide) [] (0, [])⟩

/-- C8 counterexample: selecting a new trend window ("10 s") on a state
whose buffer holds one point recomputes the capacity but leaves the
buffer non-empty — the change handler never clears it. -/
theorem claim_C8_counterexample :
    (on_trend_window_change
        ⟨60, 6000, [(0, [some 5])]⟩ "10 s").window_seconds = 10 ∧
    (on_trend_window_change
        ⟨60, 6000, [(0, [some 5])]⟩ "10 s").trend_buffer_max
      = 10 * points_per_second ∧
    (on_trend_window_change
        ⟨60, 6000, [(0, [some 5])]⟩ "10 s").trend_buffer ≠ [] := by
  refine ⟨rfl, rfl, ?_⟩
  decide

/-- C8 (amended): changing the trend-window duration via the UI control
recomputes the capacity as the new window_seconds * samples_per_second,
but the buffer itself is left untouched (it is not cleared). -/
theorem claim_C8_window_change (s : TrendState) :
    ((on_trend_window_change s "10 s").window_seconds = 10 ∧
     (on_trend_window_change s "10 s").trend_buffer_max
       = 10 * points_per_second ∧
     (on_trend_window_change s "10 s").trend_buffer = s.trend_buffer) ∧
    ((on_trend_window_change s "30 s").window_seconds = 30 ∧
     (on_trend_window_change s "30 s").trend_buffer_max
       = 30 * points_per_second ∧
     (on_trend_window_change s "30 s").trend_buffer = s.trend_buffer) ∧
    ((on_trend_window_change s "60 s").window_seconds = 60 ∧
     (on_trend_window_change s "60 s").trend_buffer_max
       = 60 * points_per_second ∧
     (on_trend_window_change s "60 s").trend_buffer = s.trend_buffer) ∧
    ((on_trend_window_change s "5 min").window_seconds = 300 ∧
     (on_trend_window_change s "5 min").trend_buffer_max
       = 300 * points_per_second ∧
     (on_trend_window_change s "5 min").trend_buffer = s.trend_buffer) ∧
    (∀ seconds : ℕ,
       (set_trend_window s seconds).trend_buffer_max
         = seconds * points_per_second ∧
       (set_trend_window s seconds).trend_buffer = s.trend_buffer) := by
  refine ⟨⟨?_, ?_, ?_⟩, ⟨?_, ?_, ?_⟩, ⟨?_, ?_, ?_⟩, ⟨?_, ?_, ?_⟩,
          fun seconds => ⟨rfl, rfl⟩⟩ <;>
    simp [on_trend_window_change, set_trend_window]

-- range invariant helpers for C9

theorem conv_in_range (c : ℕ) (z : ℤ) (hz : code_to_A_int_conv c = some z) :
    0 ≤ z ∧ z ≤ 63 := by
  simp only [code_to_A_int_conv] at hz
  split_ifs at hz
  injection hz with hz
  rw [← hz]
  refine pyRound_mem_Icc ?_ ?_
  · push_cast
    exact le_max_of_le_left (by norm_num)
  · push_cast
    exact max_le (by norm_num) ((min_le_left _ _).trans (by norm_num))

theorem spike_accept_in_range (last : Option ℤ) (a : ℤ)
    (hl : ∀ v, last = some v → 0 ≤ v ∧ v ≤ 63) (ha : 0 ≤ a ∧ a ≤ 63) :
    (0 ≤ (spike_accept last a).1 ∧ (spike_accept last a).1 ≤ 63) ∧
    (∀ v, (spike_accept last a).2 = some v → 0 ≤ v ∧ v ≤ 63) := by
  cases last with
  | none =>
      refine ⟨ha, fun v hv => ?_⟩
      injection hv with hv
      exact hv ▸ ha
  | some lv =>
      have hlv := hl lv rfl
      by_cases hd : |a - lv| > 10
      · simp only [spike_accept, if_pos hd]
        exact ⟨hlv, fun v hv => by injection hv with hv; exact hv ▸ hlv⟩
      · simp only [spike_accept, if_neg hd]
        exact ⟨ha, fun v hv => by injection hv with hv; exact hv ▸ ha⟩

theorem code_to_A_int_in_range (last : Option ℤ) (raw : Option ℕ)
    (hl : ∀ v, last = some v → 0 ≤ v ∧ v ≤ 63) :
    (∀ v, (code_to_A_int last raw).1 = some v → 0 ≤ v ∧ v ≤ 63) ∧
    (∀ v, (code_to_A_int last raw).2 = some v → 0 ≤ v ∧ v ≤ 63) := by
  cases raw with
  | none => exact ⟨fun v hv => absurd hv (by simp [code_to_A_int]), hl⟩
  | some rc =>
      cases hc : code_to_A_int_conv rc with
      | none =>
          simp only [code_to_A_int, hc]
          exact ⟨fun v hv => absurd hv (by simp), hl⟩
      | some A =>
          simp only [code_to_A_int, hc]
          have hs := spike_accept_in_range last A hl (conv_in_range rc A hc)
          exact ⟨fun v hv => by injection hv with hv; exact hv ▸ hs.1, hs.2⟩

theorem worker_tick_some_cons (s : RunState) (ts : ℕ) (r0 : ℕ) (rtl : List ℕ) :
    worker_tick s ts (some (r0 :: rtl)) =
      match (code_to_A_int s.last_a_int (some r0)).1 with
      | none => { s with last_a_int := (code_to_A_int s.last_a_int (some r0)).2 }
      | some a_int =>
          if s.warmup_left > 0 then
            { s with warmup_left := s.warmup_left - 1,
                     last_a_int := (code_to_A_int s.last_a_int (some r0)).2 }
          else
            { s with last_a_int := (code_to_A_int s.last_a_int (some r0)).2,
                     series_all := s.series_all ++ [(ts, a_int)] } := rfl

theorem worker_tick_ok (s : RunState) (ts : ℕ) (raw : Option (List ℕ))
    (h : seriesOk s) : seriesOk (worker_tick s ts raw) := by
  cases raw with
  | none => exact h
  | some l =>
      cases l with
      | nil => exact h
      | cons r0 rtl =>
          have hk := code_to_A_int_in_range s.last_a_int (some r0) h.1
          rw [worker_tick_some_cons]
          cases hp : (code_to_A_int s.last_a_int (some r0)).1 with
          | none => exact ⟨hk.2, h.2⟩
          | some a =>
              show seriesOk (if s.warmup_left > 0 then
                  { s with warmup_left := s.warmup_left - 1,
                           last_a_int := (code_to_A_int s.last_a_int (some r0)).2 }
                else
                  { s with last_a_int := (code_to_A_int s.last_a_int (some r0)).2,
                           series_all := s.series_all ++ [(ts, a)] })
              by_cases hw : s.warmup_left > 0
              · rw [if_pos hw]
                exact ⟨hk.2, h.2⟩
              · rw [if_neg hw]
                refine ⟨hk.2, fun p hp2 => ?_⟩
                rcases List.mem_append.mp hp2 with h1 | h2
                · exact h.2 p h1
                · have hpa : p = (ts, a) := by simpa using h2
                  rw [hpa]
                  exact hk.1 a hp

theorem worker_run_ok (ins : List (ℕ × Option (List ℕ))) :
    ∀ s : RunState, seriesOk s → seriesOk (worker_run s ins) := by
  induction ins with
  | nil => intro s h; exact h
  | cons hd tl ih => intro s h; exact ih _ (worker_tick_ok s hd.1 hd.2 h)

/-- C9: every present pipeline output value — including a value
substituted by the spike filter — lies in [0, 63], and consequently every
value appended to the full-history log during a run lies in [0, 63]. -/
theorem claim_C9_range_invariant (W : ℕ) (ins : List (ℕ × Option (List ℕ))) :
    (∀ (last : Option ℤ) (raw : Option ℕ) (v : ℤ),
       (∀ u, last = some u → 0 ≤ u ∧ u ≤ 63) →
       (code_to_A_int last raw).1 = some v → 0 ≤ v ∧ v ≤ 63) ∧
    (∀ p ∈ (worker_run (on_start_state W) ins).series_all,
       0 ≤ p.2 ∧ p.2 ≤ 63) := by
  constructor
  · intro last raw v hl hv
    exact (code_to_A_int_in_range last raw hl).1 v hv
  · have h0 : seriesOk (on_start_state W) :=
      ⟨fun v hv => absurd hv (by simp [on_start_state]),
       fun p hp => absurd hp (by simp [on_start_state])⟩
    exact (worker_run_ok ins _ h0).2

theorem conv_8192 : code_to_A_int_conv 8192 = some 4 := by
  simp only [code_to_A_int_conv]
  rw [if_neg (by norm_num), if_neg (by norm_num [code_to_mA])]
  congr 1
  rw [show mA_to_A (code_to_mA (8192 % 65536)) = 3.92616 from by
        norm_num [mA_to_A, code_to_mA]]
  rw [show max 0.0 (min 63.0 (3.92616 : ℚ)) = 3.92616 from by norm_num]
  unfold pyRound
  rw [show ⌊(3.92616 : ℚ)⌋ = 3 from by norm_num [Int.floor_eq_iff]]
  rw [if_neg (by norm_num)]
  norm_num [round_eq, Int.floor_eq_iff]

theorem code_to_A_int_8192 : code_to_A_int none (some 8192) = (some 4, some 4) := by
  simp [code_to_A_int, conv_8192, spike_accept]

theorem worker_run_8192 :
    worker_run (on_start_state 0) [(0, some [8192])]
      = RunState.mk 0 (some 4) [(0, 4)] := by
  show worker_tick (on_start_state 0) 0 (some [8192]) = _
  simp [worker_tick, on_start_state, code_to_A_int_8192]

/-- Witness for C9: code 8192 converts to 4 A, which is logged with no
warm-up and lies in range. -/
theorem claim_C9_range_invariant_witness :
    ((∀ u, (none : Option ℤ) = some u → 0 ≤ u ∧ u ≤ 63) ∧
     (code_to_A_int none (some 8192)).1 = some 4 ∧
     (0 ≤ (4 : ℤ) ∧ (4 : ℤ) ≤ 63)) ∧
    (((0 : ℕ), (4 : ℤ)) ∈
       (worker_run (on_start_state 0) [(0, some [8192])]).series_all ∧
     (0 ≤ (((0 : ℕ), (4 : ℤ)) : ℕ × ℤ).2 ∧ (((0 : ℕ), (4 : ℤ)) : ℕ × ℤ).2 ≤ 63)) :=
  ⟨⟨fun u hu => absurd hu (by simp), by rw [code_to_A_int_8192],
    (claim_C9_range_invariant 0 [(0, some [8192])]).1 none (some 8192) 4
      (fun u hu => absurd hu (by simp)) (by rw [code_to_A_int_8192])⟩,
   ⟨by simp [worker_run_8192],
    (claim_C9_range_invariant 0 [(0, some [8192])]).2 (0, 4)
      (by simp [worker_run_8192])⟩⟩

end Modbus
